import Mathlib

/-!
Verification of the summon launcher backend (Rust sources under src/rust/)
against its natural-language specification.

Modelling conventions, shared by every definition below:

* Rust strings are modelled as lists of bytes (List Nat); every concrete
  input appearing in a theorem is ASCII, so a Lean String is converted with
  strBytes (one byte per character).
* Whitespace is the ASCII fragment of char::is_whitespace
  (tab 9, newline 10, vertical tab 11, form feed 12, carriage return 13,
  space 32), which covers every input considered here.
* f32 score constants of the source (100.0, 95.0, 200.0, 0.0) are exactly
  representable, so scores are modelled as integers.
* External collaborators (the nucleo fuzzy algorithm, child processes run
  by the script filter, the aho-corasick automaton, the rkyv serializer,
  the filesystem) are parameters of the functions that call them; the code
  of this repository itself is translated line by line.
-/

namespace Summon

/- ======================== DEFINITIONS ======================== -/

/-- A byte of a UTF-8 Rust string. -/
abbrev Byte := Nat

/-- ASCII fragment of Rust char::is_whitespace: tab through carriage return, and space. -/
def isWsByte (b : Nat) : Bool := b == 32 || (9 ≤ b && b ≤ 13)

/-- Convert an ASCII Lean string literal to its byte list. -/
def strBytes (s : String) : List Nat := s.data.map Char.toNat

/-- Accumulator form of str::split_whitespace: acc holds the current token reversed. -/
def splitWsAux : List Nat → List Nat → List (List Nat)
  | [], acc => if acc = [] then [] else [acc.reverse]
  | b :: rest, acc =>
    if isWsByte b then
      if acc = [] then splitWsAux rest [] else acc.reverse :: splitWsAux rest []
    else splitWsAux rest (b :: acc)

/-- str::split_whitespace: maximal runs of non-whitespace bytes. -/
def splitWs (s : List Nat) : List (List Nat) := splitWsAux s []

/-- str::trim: drop leading and trailing whitespace. -/
def trimBytes (s : List Nat) : List Nat :=
  ((s.dropWhile isWsByte).reverse.dropWhile isWsByte).reverse

/- ----------------------------------------------------------------------
C2: FuzzyMatcher::calculate_bonus and match_with_pattern
(src/rust/search_engine/src/fuzzy_matcher.rs, lines 29-80).
The nucleo base algorithm (pattern.indices) is external; its output, an
optional (base score, match indices) pair, is a parameter.
---------------------------------------------------------------------- -/

/-- u8::to_ascii_lowercase. -/
def toLowerByte (b : Nat) : Nat := if 65 ≤ b ∧ b ≤ 90 then b + 32 else b

/-- u8::eq_ignore_ascii_case. -/
def eqIgnoreCaseByte (a b : Nat) : Bool := toLowerByte a == toLowerByte b

/-- str::eq_ignore_ascii_case: equal length and bytewise ASCII-case-insensitive equality. -/
def eqIgnoreCaseBytes (a b : List Nat) : Bool :=
  a.length == b.length && (a.zip b).all fun p => eqIgnoreCaseByte p.1 p.2

/-- Number of adjacent index pairs (i, i+1) in the match index list
(the windows(2) loop of calculate_bonus). -/
def countConsecutive : List Nat → Nat
  | a :: b :: rest => (if b = a + 1 then 1 else 0) + countConsecutive (b :: rest)
  | _ => 0

/-- FuzzyMatcher::calculate_bonus, translated clause by clause.  The length
penalty is (candidate.len() as i64).saturating_sub(query.len() as i64) * 10;
for usize values reinterpreted as i64 the saturation bound is never reached,
so it is plain signed subtraction and may be negative. -/
def calculateBonus (candidate query : List Nat) (baseScore : Int) (indices : List Nat) : Int :=
  let bonus1 : Int := if eqIgnoreCaseBytes candidate query then 10000 else 0
  let bonus2 : Int :=
    if query.length ≤ candidate.length &&
        ((candidate.take query.length).zip query).all (fun p => eqIgnoreCaseByte p.1 p.2)
    then 5000 else 0
  let bonus3 : Int := if indices.head? = some 0 then 2000 else 0
  let lengthPenalty : Int := ((candidate.length : Int) - (query.length : Int)) * 10
  baseScore + (bonus1 + bonus2 + bonus3 + 100 * (countConsecutive indices : Int)) - lengthPenalty

/-- FuzzyMatcher::match_with_pattern: the underlying fuzzy algorithm's output
(fuzzyResult, produced by nucleo's pattern.indices) is post-processed with
calculate_bonus; no match stays no match. -/
def matchWithPattern (fuzzyResult : Option (Int × List Nat)) (candidate query : List Nat) :
    Option (Int × List Nat) :=
  fuzzyResult.map fun p => (calculateBonus candidate query p.1 p.2, p.2)

/-- Modelled from the spec's words for comparison (refinement target of C2):
the same bonuses but a length penalty clamped at zero,
max(len(candidate) - len(query), 0) * 10. -/
def specCalculateBonus (candidate query : List Nat) (baseScore : Int) (indices : List Nat) : Int :=
  let bonus1 : Int := if eqIgnoreCaseBytes candidate query then 10000 else 0
  let bonus2 : Int :=
    if query.length ≤ candidate.length &&
        ((candidate.take query.length).zip query).all (fun p => eqIgnoreCaseByte p.1 p.2)
    then 5000 else 0
  let bonus3 : Int := if indices.head? = some 0 then 2000 else 0
  let lengthPenalty : Int := max (((candidate.length : Int) - (query.length : Int)) * 10) 0
  baseScore + (bonus1 + bonus2 + bonus3 + 100 * (countConsecutive indices : Int)) - lengthPenalty

/- ----------------------------------------------------------------------
C3: SearchEngine::search top-K selection
(src/rust/search_engine/src/lib.rs, lines 120-174 and HeapItem, lines 49-65).
A gathered match is (item, score, name); the comparator used by HeapItem,
select_nth_unstable_by and sort_unstable_by is
b.score.cmp(&a.score).then_with(|| a.name.cmp(&b.name)):
score descending, then name ascending (bytewise lexicographic).
---------------------------------------------------------------------- -/

/-- Rust byte-slice lexicographic strict order (shorter prefix first). -/
def bytesLt : List Nat → List Nat → Bool
  | [], [] => false
  | [], _ :: _ => true
  | _ :: _, [] => false
  | a :: as, b :: bs => decide (a < b) || (decide (a = b) && bytesLt as bs)

/-- One gathered match of SearchEngine::search: the shared item reduced to
its id, the bonus-adjusted score and the name the comparators look at. -/
structure MatchItem where
  id : List Nat
  score : Int
  name : List Nat
deriving DecidableEq, Repr

/-- a ranks strictly before b: higher score first, ties by name ascending
(the comparator b.score.cmp(&a.score).then_with(|| a.name.cmp(&b.name))). -/
def ranksBefore (a b : MatchItem) : Bool :=
  decide (b.score < a.score) || (decide (a.score = b.score) && bytesLt a.name b.name)

/-- a ranks no worse than b. -/
def ranksLE (a b : MatchItem) : Prop := ranksBefore b a = false

/-- Functional model of pushing onto the bounded min-heap
(BinaryHeap<Reverse<HeapItem>>): the retained matches are kept as a list
sorted best-first; pushing inserts in rank order and, when the size exceeds
limit, pops the minimum, i.e. drops the worst (last) element. -/
def insRanked (x : MatchItem) : List MatchItem → List MatchItem
  | [] => [x]
  | y :: ys => if ranksBefore x y then x :: y :: ys else y :: insRanked x ys

/-- Insertion sort by the search comparator: the functional model of
sort_unstable_by with (score desc, name asc). -/
def sortRanked (xs : List MatchItem) : List MatchItem :=
  xs.foldl (fun acc x => insRanked x acc) []

/-- One iteration of the heap branch of SearchEngine::search: push, then pop
the minimum when the heap exceeds limit. -/
def heapPush (limit : Nat) (h : List MatchItem) (x : MatchItem) : List MatchItem :=
  let h2 := insRanked x h
  if limit < h2.length then h2.dropLast else h2

/-- The limit < 100 branch of SearchEngine::search: fold every match through
the bounded heap, then drain and sort by (score desc, name asc);
the drain-and-sort is the identity on the sorted retained list. -/
def heapSelect (limit : Nat) (xs : List MatchItem) : List MatchItem :=
  xs.foldl (heapPush limit) []

/-- The limit >= 100 branch of SearchEngine::search: collect all matches,
select_nth_unstable_by the cutoff at limit, truncate, then sort the prefix
by the same comparator; its net effect is the first limit elements of the
fully sorted buffer. -/
def vecSelect (limit : Nat) (xs : List MatchItem) : List MatchItem :=
  (sortRanked xs).take limit

/-- The selection dispatch of SearchEngine::search:
use_heap = limit < HEAP_THRESHOLD (100). -/
def computeResults (limit : Nat) (ms : List MatchItem) : List MatchItem :=
  if limit < 100 then heapSelect limit ms else vecSelect limit ms


/- ----------------------------------------------------------------------
C1 (and the Pattern branch of the dispatcher): match_pattern and
expand_template (src/rust/action_manager/src/pattern.rs, lines 5-103)
and create_result (lines 105-139).
---------------------------------------------------------------------- -/

/-- The capture map (FxHashMap<String, String>): an association list whose
insert overwrites the previous binding of the key. -/
abbrev Caps := List (List Nat × List Nat)

/-- FxHashMap::get. -/
def capsLookup (k : List Nat) : Caps → Option (List Nat)
  | [] => none
  | p :: rest => if p.1 = k then some p.2 else capsLookup k rest

/-- Drop every binding of the key (at most one exists in maps built here). -/
def capsEraseKey (k : List Nat) : Caps → Caps
  | [] => []
  | p :: rest => if p.1 = k then capsEraseKey k rest else p :: capsEraseKey k rest

/-- FxHashMap::insert: bind k to v, dropping any previous binding. -/
def capsInsert (k v : List Nat) (caps : Caps) : Caps := (k, v) :: capsEraseKey k caps

/-- Split a byte list at the first occurrence of b:
some (before, after) with the list = before ++ b :: after and no b in before
(the position(|byte| byte == b) searches of pattern.rs). -/
def breakAtByte (b : Nat) : List Nat → Option (List Nat × List Nat)
  | [] => none
  | x :: rest =>
    if x = b then some ([], rest)
    else
      match breakAtByte b rest with
      | none => none
      | some (p, a) => some (x :: p, a)

/-- The suffix returned by breakAtByte is strictly shorter: the termination
measure of the byte-walk recursions below. -/
theorem breakAtByte_shrink (b : Nat) :
    ∀ (xs p a : List Nat), breakAtByte b xs = some (p, a) → a.length < xs.length := by
  intro xs
  induction xs with
  | nil => intro p a h; simp [breakAtByte] at h
  | cons x rest ih =>
    intro p a h
    simp only [breakAtByte] at h
    split at h
    · cases h
      simp
    · cases hx : breakAtByte b rest with
      | none => rw [hx] at h; cases h
      | some pa =>
        rw [hx] at h
        cases h
        have := ih pa.1 pa.2 (by rw [hx])
        simp at this ⊢
        omega

/-- First index of byte b in the remaining input
(inp_bytes.iter().skip(inp_idx).position(...)). -/
def findByteIdx (b : Nat) (s : List Nat) : Option Nat := s.findIdx? (· == b)

/-- The byte walk of match_pattern over one pattern token containing a brace
(pattern.rs lines 17-63), operating on the remaining pattern suffix, the
remaining input suffix and the captures so far.  At a brace it finds the
closing brace, captures up to the next literal byte (or to the end of the
input when the placeholder is last), rejecting empty captures; otherwise it
matches literal bytes one for one; at the end the input must be consumed.
Each iteration consumes at least one pattern byte, so the loop is driven by
structural fuel that the wrapper seeds with the pattern length. -/
def walkTokenF : Nat → List Nat → List Nat → Caps → Option Caps
  | _, [], inp, caps => if inp = [] then some caps else none
  | 0, _ :: _, _, _ => none
  | fuel + 1, pb :: prest, inp, caps =>
    if pb = 123 then
      match breakAtByte 125 prest with
      | none => none
      | some (varName, after) =>
        let valueLen :=
          match after with
          | [] => inp.length
          | lit :: _ =>
            match findByteIdx lit inp with
            | some i => i
            | none => inp.length
        if 0 < valueLen then
          walkTokenF fuel after (inp.drop valueLen) (capsInsert varName (inp.take valueLen) caps)
        else none
    else
      match inp with
      | [] => none
      | ib :: irest => if pb = ib then walkTokenF fuel prest irest caps else none

/-- The byte walk at its natural fuel. -/
def walkToken (pat inp : List Nat) (caps : Caps) : Option Caps :=
  walkTokenF pat.length pat inp caps

/-- One token of match_pattern: the brace walk when the token contains a
brace, otherwise literal equality. -/
def matchToken (pat inp : List Nat) (caps : Caps) : Option Caps :=
  if pat.contains 123 then walkToken pat inp caps
  else if pat = inp then some caps else none

/-- The zipped token loop of match_pattern. -/
def matchTokens : List (List Nat) → List (List Nat) → Caps → Option Caps
  | [], [], caps => some caps
  | p :: ps, q :: qs, caps =>
    match matchToken p q caps with
    | some caps2 => matchTokens ps qs caps2
    | none => none
  | _, _, _ => none

/-- match_pattern (pattern.rs lines 5-70): split both strings on whitespace,
require equally many tokens, then match token by token, threading the
capture map. -/
def matchPattern (pattern input : List Nat) : Option Caps :=
  let pp := splitWs pattern
  let qq := splitWs input
  if pp.length ≠ qq.length then none
  else matchTokens pp qq []

/-- expand_template (pattern.rs lines 72-103): scan the template; at a brace
whose key (up to the next closing brace) is bound in the captures, emit the
bound value and continue after the closing brace; otherwise emit the byte and
continue with the next byte.  Inserted values are not rescanned.  Fuel-driven
like the walk; each step consumes at least one template byte. -/
def expandF : Nat → Caps → List Nat → List Nat
  | _, _, [] => []
  | 0, _, s => s
  | fuel + 1, caps, b :: rest =>
    if b = 123 then
      match breakAtByte 125 rest with
      | some (key, after) =>
        match capsLookup key caps with
        | some v => v ++ expandF fuel caps after
        | none => 123 :: expandF fuel caps rest
      | none => 123 :: expandF fuel caps rest
    else b :: expandF fuel caps rest

/-- expand_template at its natural fuel. -/
def expandTemplate (caps : Caps) (t : List Nat) : List Nat := expandF t.length caps t

/-- The placeholder names of a pattern token, in capture order: at a brace,
the bytes up to the matching close; elsewhere skip a byte. -/
def patNamesF : Nat → List Nat → List (List Nat)
  | _, [] => []
  | 0, _ => []
  | fuel + 1, pb :: rest =>
    if pb = 123 then
      match breakAtByte 125 rest with
      | some (varName, after) => varName :: patNamesF fuel after
      | none => []
    else patNamesF fuel rest

/-- The placeholder names at the natural fuel. -/
def patNames (t : List Nat) : List (List Nat) := patNamesF t.length t

/- ----------------------------------------------------------------------
The Action Dispatcher (src/rust/action_manager/src/lib.rs and action.rs).
execute_script_filter spawns a child process, and a native extension's
search is dynamic dispatch into a registry: both are parameters (sf, ext)
of the search; everything else is translated from the source.
---------------------------------------------------------------------- -/

/-- PatternActionType of action.rs. -/
inductive PatternActionType where
  | openUrl (url : List Nat)
  | copyText (text : List Nat)
  | runCommand (cmd : List Nat) (args : List (List Nat))
deriving DecidableEq, Repr

/-- ResultAction of action.rs. -/
inductive ResultAction where
  | openUrl (url : List Nat)
  | copyText (text : List Nat)
  | runCommand (cmd : List Nat) (args : List (List Nat))
deriving DecidableEq, Repr

/-- ActionKind: the variants matched by ActionManager::search (lib.rs
lines 106-157; action.rs declares the first three). -/
inductive ActionKind where
  | quickLink (keyword url : List Nat)
  | patternKind (pattern : List Nat) (action : PatternActionType)
  | scriptFilter (keyword scriptPath extensionDir : List Nat)
  | nativeExtension (keyword extensionId : List Nat)
deriving DecidableEq, Repr

/-- Action of action.rs. -/
structure Action where
  id : List Nat
  name : List Nat
  icon : List Nat
  enabled : Bool
  kind : ActionKind
deriving DecidableEq, Repr

/-- ActionResult of action.rs; score is an exactly-representable f32. -/
structure ActionResult where
  id : List Nat
  title : List Nat
  subtitle : List Nat
  icon : List Nat
  iconPath : Option (List Nat)
  score : Int
  action : ResultAction
  quicklook : Option (List Nat)
deriving DecidableEq, Repr

/-- create_result (pattern.rs lines 105-139): expand the pattern as the
title, expand the action templates, derive the subtitle from the action,
score 95.0. -/
def createResult (actionId : List Nat) (pat : List Nat) (t : PatternActionType)
    (caps : Caps) (icon : List Nat) : ActionResult :=
  let title := expandTemplate caps pat
  let ra : ResultAction :=
    match t with
    | .openUrl url => .openUrl (expandTemplate caps url)
    | .copyText text => .copyText (expandTemplate caps text)
    | .runCommand cmd args => .runCommand (expandTemplate caps cmd) (args.map (expandTemplate caps))
  let subtitle :=
    match ra with
    | .openUrl url => url
    | .copyText text => strBytes ("Copy: ") ++ text
    | .runCommand cmd args => strBytes ("Run: ") ++ cmd ++ [32] ++ List.intercalate [32] args
  { id := actionId ++ [58] ++ title, title := title, subtitle := subtitle, icon := icon,
    iconPath := none, score := 95, action := ra, quicklook := none }

/-- ActionManager::match_quick_link (lib.rs lines 163-173): trim the query,
strip the keyword as a prefix, accept iff what follows is empty or starts
with a space or a tab; the returned value is the trimmed tail. -/
def matchQuickLink (query keyword : List Nat) : Option (List Nat) :=
  let trimmed := trimBytes query
  if keyword.isPrefixOf trimmed then
    let tail := trimmed.drop keyword.length
    if tail = [] ∨ tail.head? = some 32 ∨ tail.head? = some 9 then some (trimBytes tail)
    else none
  else none

/-- Bytes the urlencoding crate leaves unescaped: ASCII alphanumerics and
the marks - . _ ~ . -/
def isUrlSafeByte (b : Nat) : Bool :=
  (65 ≤ b && b ≤ 90) || (97 ≤ b && b ≤ 122) || (48 ≤ b && b ≤ 57) ||
    b == 45 || b == 46 || b == 95 || b == 126

/-- Uppercase hex digit byte of a nibble. -/
def hexDigit (n : Nat) : Nat := if n < 10 then 48 + n else 55 + n

/-- urlencoding::encode: percent-encode every byte outside the unreserved set. -/
def percentEncode : List Nat → List Nat
  | [] => []
  | b :: rest =>
    if isUrlSafeByte b then b :: percentEncode rest
    else 37 :: hexDigit (b / 16) :: hexDigit (b % 16) :: percentEncode rest

/-- The literal bytes of the {query} placeholder of a QuickLink url. -/
def queryHole : List Nat := [123, 113, 117, 101, 114, 121, 125]

/-- str::replace: replace the non-overlapping occurrences of pat, scanning
left to right and continuing after each replacement.  (The source only calls
it with the non-empty pattern queryHole; an empty pat is the identity here.)
Fuel-driven; each step consumes at least one byte of the scanned string. -/
def replaceAllF (pat rep : List Nat) : Nat → List Nat → List Nat
  | _, [] => []
  | 0, s => s
  | fuel + 1, b :: rest =>
    if pat ≠ [] ∧ pat.isPrefixOf (b :: rest) then
      rep ++ replaceAllF pat rep fuel ((b :: rest).drop pat.length)
    else b :: replaceAllF pat rep fuel rest

/-- str::replace at its natural fuel. -/
def replaceAll (pat rep s : List Nat) : List Nat := replaceAllF pat rep s.length s

/-- The outcome of script_filter::execute_script_filter
(script path, extension dir, query, action id): a child-process run,
external to this model. -/
abbrev ScriptExec := List Nat → List Nat → List Nat → List Nat → Except (List Nat) (List ActionResult)

/-- ExtensionRegistry::search (extension id, query): dynamic dispatch into
registered native extensions, external to this model. -/
abbrev ExtSearch := List Nat → List Nat → List ActionResult

/-- The body of ActionManager::search for one enabled action
(lib.rs lines 106-157): the results it pushes for the query. -/
def resultsOf (sf : ScriptExec) (ext : ExtSearch) (query : List Nat) (a : Action) :
    List ActionResult :=
  match a.kind with
  | .quickLink keyword url =>
    match matchQuickLink query keyword with
    | some sq =>
      let expandedUrl := replaceAll queryHole (percentEncode sq) url
      [{ id := a.id ++ [58] ++ sq, title := a.name ++ [58, 32] ++ sq,
         subtitle := expandedUrl, icon := a.icon, iconPath := none, score := 100,
         action := .openUrl expandedUrl, quicklook := none }]
    | none => []
  | .patternKind pat t =>
    match matchPattern pat query with
    | some caps => [createResult a.id pat t caps a.icon]
    | none => []
  | .scriptFilter keyword scriptPath extensionDir =>
    match matchQuickLink query keyword with
    | some sq =>
      match sf scriptPath extensionDir sq a.id with
      | .ok rs => rs
      | .error e =>
        [{ id := a.id ++ strBytes (":error"), title := strBytes ("Script Error"),
           subtitle := strBytes ("Failed to execute: ") ++ e,
           icon := strBytes ("exclamationmark.triangle"), iconPath := none, score := 0,
           action := .copyText e, quicklook := none }]
    | none => []
  | .nativeExtension keyword extensionId =>
    match matchQuickLink query keyword with
    | some sq => ext extensionId sq
    | none => []

/-- ActionManager::search (lib.rs lines 101-161): for each enabled action in
order, append the results it produces. -/
def managerSearch (sf : ScriptExec) (ext : ExtSearch) (actions : List Action)
    (query : List Nat) : List ActionResult :=
  match actions with
  | [] => []
  | a :: rest =>
    (if a.enabled then resultsOf sf ext query a else []) ++ managerSearch sf ext rest query

/-- The keyword list gathered by ActionManager::rebuild_keyword_matcher
(lib.rs lines 214-242): keywords of enabled keyword-bearing actions;
Pattern actions contribute nothing. -/
def enabledKeywords (actions : List Action) : List (List Nat) :=
  (actions.filter (·.enabled)).filterMap fun a =>
    match a.kind with
    | .quickLink k _ => some k
    | .scriptFilter k _ _ => some k
    | .nativeExtension k _ => some k
    | .patternKind _ _ => none

/-- The automaton field after rebuild_keyword_matcher: None when the keyword
list is empty, otherwise the automaton built over exactly that list (an
AhoCorasick value is abstracted to the pattern list it was built from;
the construction is assumed to succeed). -/
def rebuildKeywordMatcher (actions : List Action) : Option (List (List Nat)) :=
  let kws := enabledKeywords actions
  if kws = [] then none else some kws

/-- The dispatcher state: the in-memory action list and the keyword
automaton (ActionManager's actions and keyword_matcher fields). -/
structure ManagerState where
  actions : List Action
  keywordMatcher : Option (List (List Nat))
deriving DecidableEq, Repr

/-- ActionManager::add: push, then rebuild_keyword_matcher before returning. -/
def managerAdd (a : Action) (st : ManagerState) : ManagerState :=
  let acts := st.actions ++ [a]
  { actions := acts, keywordMatcher := rebuildKeywordMatcher acts }

/-- Replace the first action with the given id (the position/assign of
ActionManager::update). -/
def updateById (a : Action) : List Action → List Action
  | [] => []
  | b :: rest => if b.id = a.id then a :: rest else b :: updateById a rest

/-- ActionManager::update: replace in place when the id exists, and only
then rebuild_keyword_matcher. -/
def managerUpdate (a : Action) (st : ManagerState) : ManagerState :=
  if st.actions.any (fun b => b.id = a.id) then
    let acts := updateById a st.actions
    { actions := acts, keywordMatcher := rebuildKeywordMatcher acts }
  else st

/-- ActionManager::remove: retain the other ids; rebuild only when something
was removed. -/
def managerRemove (id : List Nat) (st : ManagerState) : ManagerState :=
  if st.actions.any (fun b => b.id = id) then
    let acts := st.actions.filter fun b => ¬ (b.id = id)
    { actions := acts, keywordMatcher := rebuildKeywordMatcher acts }
  else st

/-- Flip the enabled flag of the first action with the given id
(the find/flip of ActionManager::toggle). -/
def toggleById (id : List Nat) : List Action → List Action
  | [] => []
  | b :: rest => if b.id = id then { b with enabled := !b.enabled } :: rest else b :: toggleById id rest

/-- ActionManager::toggle: flip the flag when the id exists;
rebuild_keyword_matcher runs unconditionally before returning. -/
def managerToggle (id : List Nat) (st : ManagerState) : ManagerState :=
  let acts := toggleById id st.actions
  { actions := acts, keywordMatcher := rebuildKeywordMatcher acts }

/-- The dispatcher invariant relating C5's claim to the code: the automaton
always reflects the current enabled keyword set, because every mutation
rebuilds it eagerly before returning. -/
def kmWellFormed (st : ManagerState) : Prop :=
  st.keywordMatcher = rebuildKeywordMatcher st.actions

/-- KeywordMatcherCache of shared_utils (lib.rs lines 12-44): an automaton
slot and the needs-rebuild flag.  (The Action Dispatcher does not use it.) -/
structure KeywordMatcherCache where
  automaton : Option (List (List Nat))
  matcherNeedsRebuild : Bool
deriving DecidableEq, Repr

/-- KeywordMatcherCache::new: empty automaton, flag raised. -/
def kmcNew : KeywordMatcherCache := { automaton := none, matcherNeedsRebuild := true }

/-- KeywordMatcherCache::invalidate. -/
def kmcInvalidate (c : KeywordMatcherCache) : KeywordMatcherCache :=
  { c with matcherNeedsRebuild := true }

/-- KeywordMatcherCache::rebuild: build the automaton from the supplied
pattern list (build_automaton_leftmost_longest: none on an empty list),
then lower the flag. -/
def kmcRebuild (patternBuilder : Unit → List (List Nat)) (c : KeywordMatcherCache) :
    KeywordMatcherCache :=
  let patterns := patternBuilder ()
  { c with
    automaton := if patterns = [] then none else some patterns,
    matcherNeedsRebuild := false }

/-- The sample QuickLink of C6 (also the github default of import_defaults
but with the icon of the source's test_quick_link). -/
def ghAction : Action :=
  { id := strBytes ("gh"), name := strBytes ("GitHub"), icon := strBytes ("magnifyingglass"),
    enabled := true,
    kind := .quickLink (strBytes ("gh")) (strBytes ("https://github.com/search?q=") ++ queryHole) }

/- ----------------------------------------------------------------------
C4: the Search Engine result cache and generation tracking
(src/rust/search_engine/src/lib.rs, lines 101-199).  The gathered match
list (the nucleo evaluation over every candidate) is a parameter.
---------------------------------------------------------------------- -/

/-- The mutable search-engine state C4 concerns: the LRU result cache
(most recently used first) and the observed file-indexer generation. -/
structure EngineState where
  cache : List (List Nat × List MatchItem)
  observedGeneration : Nat
deriving DecidableEq, Repr

/-- LruCache::get: the value under the key, and the cache with that entry
moved to the front. -/
def lruGet (key : List Nat) (cache : List (List Nat × List MatchItem)) :
    Option (List MatchItem) × List (List Nat × List MatchItem) :=
  match cache.find? (fun p => p.1 == key) with
  | some p => (some p.2, p :: cache.filter fun q => ¬ (q.1 = key))
  | none => (none, cache)

/-- LruCache::put with the CACHE_SIZE (256) bound: insert at the front,
evicting any previous binding and the least recently used overflow. -/
def lruPut (key : List Nat) (val : List MatchItem)
    (cache : List (List Nat × List MatchItem)) : List (List Nat × List MatchItem) :=
  ((key, val) :: cache.filter fun q => ¬ (q.1 = key)).take 256

/-- SearchEngine::check_and_invalidate_cache (lib.rs lines 185-199): when a
file indexer is attached and its generation differs from the observed one,
clear the whole cache and record the new value. -/
def checkAndInvalidateCache (fileIndexerGen : Option Nat) (st : EngineState) : EngineState :=
  match fileIndexerGen with
  | none => st
  | some g =>
    if g ≠ st.observedGeneration then { cache := [], observedGeneration := g } else st

/-- The outcome of SearchEngine::search. -/
inductive SearchOutcome where
  | queryTooShort
  | ok (results : List MatchItem)
deriving DecidableEq, Repr

/-- SearchEngine::search (lib.rs lines 101-179): reject the empty query;
check and invalidate the cache; look the query up (a hit returns the cached
list truncated to limit); otherwise select the top limit of the gathered
matches (ms), cache the full ordered result under the query and return it. -/
def engineSearch (fileIndexerGen : Option Nat) (ms : List MatchItem)
    (query : List Nat) (limit : Nat) (st : EngineState) : SearchOutcome × EngineState :=
  if query = [] then (.queryTooShort, st)
  else
    let st1 := checkAndInvalidateCache fileIndexerGen st
    match lruGet query st1.cache with
    | (some cached, c2) => (.ok (cached.take limit), { st1 with cache := c2 })
    | (none, c2) =>
      let results := computeResults limit ms
      (.ok results, { st1 with cache := lruPut query results c2 })

/- ----------------------------------------------------------------------
C8: storage_utils::save_to_disk and load_from_disk
(src/rust/storage_utils/src/lib.rs, lines 113-141).  The filesystem is a
path-to-bytes map; the rkyv serializer is a parameter pair (enc, dec) whose
round-trip identity is the library's contract.
---------------------------------------------------------------------- -/

/-- The filesystem: an association of paths (byte lists) to file contents. -/
abbrev FileSys := List (List Nat × List Nat)

/-- The net effect of the temp-file write, flush and rename of save_to_disk. -/
def fsWrite (path bytes : List Nat) (fs : FileSys) : FileSys :=
  (path, bytes) :: fs.filter fun p => ¬ (p.1 = path)

/-- fs::read: the contents of the file at path, when it exists. -/
def fsRead (path : List Nat) (fs : FileSys) : Option (List Nat) :=
  (fs.find? fun p => p.1 == path).map (·.2)

/-- save_to_disk: serialize the items and write them atomically. -/
def saveToDisk {α : Type} (enc : List α → List Nat) (path : List Nat)
    (items : List α) (fs : FileSys) : FileSys :=
  fsWrite path (enc items) fs

/-- load_from_disk: read the file (an io::Result error when absent); an
empty byte string loads as the empty vector; a failed deserialization
falls back to the empty vector (the or_else(Ok(Vec::new()))). -/
def loadFromDisk {α : Type} (dec : List Nat → Option (List α)) (path : List Nat)
    (fs : FileSys) : Except Unit (List α) :=
  match fsRead path fs with
  | none => .error ()
  | some bytes => if bytes = [] then .ok [] else .ok ((dec bytes).getD [])

/- ======================== THEOREMS ======================== -/

/-- C2 counterexample: candidate "ab" against the two-atom query "a b"
(a query nucleo happily matches against "ab", with match indices [0,1]).
The code's length term is (2 - 3) * 10 = -10, i.e. a +10 boost, whereas the
claimed clamped-at-0 penalty is 0: the two scores differ. -/
theorem calculate_bonus_not_clamped_cex :
    calculateBonus [97, 98] [97, 32, 98] 1 [0, 1] = 2111 ∧
    specCalculateBonus [97, 98] [97, 32, 98] 1 [0, 1] = 2101 ∧
    calculateBonus [97, 98] [97, 32, 98] 1 [0, 1] ≠
      specCalculateBonus [97, 98] [97, 32, 98] 1 [0, 1] := by
  refine ⟨by decide, by decide, by decide⟩

/-- C2 (amended): match_with_pattern returns the base score plus the domain
bonuses minus the signed length term (len(candidate) - len(query)) * 10, which
is NOT clamped at 0: it exceeds the spec's clamped score by exactly
10 * max(len(query) - len(candidate), 0), so a query strictly longer than the
candidate (in bytes) increases the score; the two scores agree exactly when
the candidate is at least as long as the query. -/
theorem match_with_pattern_length_term :
    (∀ fuzzyResult candidate query,
      matchWithPattern fuzzyResult candidate query =
        fuzzyResult.map fun p =>
          (specCalculateBonus candidate query p.1 p.2 +
            10 * max ((query.length : Int) - (candidate.length : Int)) 0, p.2)) ∧
    (∀ candidate query baseScore indices, query.length ≤ candidate.length →
      calculateBonus candidate query baseScore indices =
        specCalculateBonus candidate query baseScore indices) := by
  have key : ∀ candidate query baseScore indices,
      calculateBonus candidate query baseScore indices =
        specCalculateBonus candidate query baseScore indices +
          10 * max ((query.length : Int) - (candidate.length : Int)) 0 := by
    intro candidate query baseScore indices
    simp only [calculateBonus, specCalculateBonus]
    omega
  constructor
  · intro fuzzyResult candidate query
    cases fuzzyResult with
    | none => rfl
    | some p => simp [matchWithPattern, key]
  · intro candidate query baseScore indices h
    rw [key]
    have : max ((query.length : Int) - (candidate.length : Int)) 0 = 0 := by omega
    rw [this]
    ring

/-- Witness for the hypothesis of the second conjunct of C2's theorem,
at candidate "abc", query "ab". -/
theorem match_with_pattern_length_term_witness :
    calculateBonus [97, 98, 99] [97, 98] 3 [0, 1] =
      specCalculateBonus [97, 98, 99] [97, 98] 3 [0, 1] :=
  match_with_pattern_length_term.2 [97, 98, 99] [97, 98] 3 [0, 1] (by decide)

theorem bytesLt_irrefl : ∀ a : List Nat, bytesLt a a = false := by
  intro a
  induction a with
  | nil => rfl
  | cons x xs ih => simp [bytesLt, ih]

theorem bytesLt_trans :
    ∀ (a b c : List Nat), bytesLt a b = true → bytesLt b c = true → bytesLt a c = true := by
  intro a
  induction a with
  | nil =>
    intro b c hab hbc
    cases b <;> cases c <;> simp_all [bytesLt]
  | cons x xs ih =>
    intro b c hab hbc
    cases b with
    | nil => simp [bytesLt] at hab
    | cons y ys =>
      cases c with
      | nil => simp [bytesLt] at hbc
      | cons z zs =>
        simp only [bytesLt, Bool.or_eq_true, Bool.and_eq_true, decide_eq_true_eq] at *
        rcases hab with h1 | ⟨he, h2⟩ <;> rcases hbc with g1 | ⟨ge, g2⟩
        · left; omega
        · left; omega
        · left; omega
        · right; exact ⟨by omega, ih ys zs h2 g2⟩

theorem bytesLt_asymm (a b : List Nat) (h : bytesLt a b = true) : bytesLt b a = false := by
  by_contra hc
  have hba : bytesLt b a = true := by
    cases hx : bytesLt b a
    · exact absurd hx hc
    · rfl
  have := bytesLt_trans a b a h hba
  rw [bytesLt_irrefl] at this
  exact Bool.false_ne_true this

theorem bytesLt_conn :
    ∀ (a b : List Nat), bytesLt a b = false → bytesLt b a = false → a = b := by
  intro a
  induction a with
  | nil =>
    intro b hab _
    cases b with
    | nil => rfl
    | cons y ys => simp [bytesLt] at hab
  | cons x xs ih =>
    intro b hab hba
    cases b with
    | nil => simp [bytesLt] at hba
    | cons y ys =>
      simp only [bytesLt, Bool.or_eq_false_iff, Bool.and_eq_false_iff, decide_eq_false_iff_not,
        decide_eq_true_eq] at hab hba
      have hxy : x = y := by omega
      subst hxy
      have h1 : bytesLt xs ys = false := by
        rcases hab.2 with h | h
        · simp at h
        · exact h
      have h2 : bytesLt ys xs = false := by
        rcases hba.2 with h | h
        · simp at h
        · exact h
      rw [ih ys h1 h2]

theorem bytesLt_negtrans (a b c : List Nat)
    (h1 : bytesLt b a = false) (h2 : bytesLt c b = false) : bytesLt c a = false := by
  cases hca : bytesLt c a
  · rfl
  · exfalso
    cases hab : bytesLt a b
    · have heq := bytesLt_conn a b hab h1
      subst heq
      rw [hca] at h2
      simp at h2
    · have := bytesLt_trans c a b hca hab
      rw [this] at h2
      simp at h2

theorem ranksBefore_trans (a b c : MatchItem)
    (h1 : ranksBefore a b = true) (h2 : ranksBefore b c = true) : ranksBefore a c = true := by
  simp only [ranksBefore, Bool.or_eq_true, Bool.and_eq_true, decide_eq_true_eq] at *
  rcases h1 with h1 | ⟨e1, n1⟩ <;> rcases h2 with h2 | ⟨e2, n2⟩
  · left; omega
  · left; omega
  · left; omega
  · right; exact ⟨by omega, bytesLt_trans _ _ _ n1 n2⟩

theorem ranksBefore_asymm (a b : MatchItem)
    (h : ranksBefore a b = true) : ranksBefore b a = false := by
  simp only [ranksBefore, Bool.or_eq_true, Bool.and_eq_true, decide_eq_true_eq,
    Bool.or_eq_false_iff, Bool.and_eq_false_iff, decide_eq_false_iff_not] at *
  rcases h with h | ⟨e, n⟩
  · exact ⟨by omega, Or.inl (by omega)⟩
  · exact ⟨by omega, Or.inr (bytesLt_asymm _ _ n)⟩

theorem ranksBefore_negtrans (a b c : MatchItem)
    (h1 : ranksBefore b a = false) (h2 : ranksBefore c b = false) : ranksBefore c a = false := by
  simp only [ranksBefore, Bool.or_eq_false_iff, Bool.and_eq_false_iff, decide_eq_false_iff_not,
    decide_eq_true_eq] at *
  refine ⟨by omega, ?_⟩
  by_cases he : c.score = a.score
  · right
    have hba : b.score = a.score := by omega
    have hcb : c.score = b.score := by omega
    have n1 : bytesLt b.name a.name = false := by
      rcases h1.2 with h | h
      · exact absurd hba h
      · exact h
    have n2 : bytesLt c.name b.name = false := by
      rcases h2.2 with h | h
      · exact absurd hcb h
      · exact h
    exact bytesLt_negtrans _ _ _ n1 n2
  · exact Or.inl he

theorem length_insRanked (x : MatchItem) (l : List MatchItem) :
    (insRanked x l).length = l.length + 1 := by
  induction l with
  | nil => rfl
  | cons y ys ih =>
    simp only [insRanked]
    split
    · simp
    · simp [ih]

theorem take_insRanked :
    ∀ (n : Nat) (x : MatchItem) (s : List MatchItem),
      (insRanked x (s.take n)).take n = (insRanked x s).take n := by
  intro n x s
  induction s generalizing n with
  | nil => simp
  | cons y ys ih =>
    cases n with
    | zero => simp
    | succ m =>
      simp only [List.take_succ_cons, insRanked]
      split
      · cases m with
        | zero => simp
        | succ k => simp [List.take_succ_cons, List.take_take]
      · simp [List.take_succ_cons, ih]

theorem heapPush_take (limit : Nat) (s : List MatchItem) (x : MatchItem) :
    heapPush limit (s.take limit) x = (insRanked x s).take limit := by
  by_cases hlen : s.length ≤ limit
  · rw [List.take_of_length_le hlen]
    unfold heapPush
    by_cases h2 : limit < (insRanked x s).length
    · have hsl : s.length = limit := by
        rw [length_insRanked] at h2; omega
      simp only [if_pos h2]
      rw [List.dropLast_eq_take, length_insRanked, hsl]
      simp
    · simp only [if_neg h2]
      rw [length_insRanked] at h2
      rw [List.take_of_length_le]
      rw [length_insRanked]; omega
  · push_neg at hlen
    unfold heapPush
    have hl : (s.take limit).length = limit := by
      rw [List.length_take]; omega
    have hl2 : (insRanked x (s.take limit)).length = limit + 1 := by
      rw [length_insRanked, hl]
    rw [if_pos (by omega), List.dropLast_eq_take, hl2]
    simpa using take_insRanked limit x s

theorem sortRanked_append_singleton (ys : List MatchItem) (y : MatchItem) :
    sortRanked (ys ++ [y]) = insRanked y (sortRanked ys) := by
  simp [sortRanked, List.foldl_append]

theorem heapSelect_eq_take_sort (limit : Nat) (xs : List MatchItem) :
    heapSelect limit xs = (sortRanked xs).take limit := by
  induction xs using List.reverseRecOn with
  | nil => simp [heapSelect, sortRanked]
  | append_singleton ys y ih =>
    rw [heapSelect, List.foldl_append]
    simp only [List.foldl_cons, List.foldl_nil]
    rw [show ys.foldl (heapPush limit) [] = heapSelect limit ys from rfl, ih,
      heapPush_take, sortRanked_append_singleton]

theorem insRanked_perm (x : MatchItem) (l : List MatchItem) :
    List.Perm (insRanked x l) (x :: l) := by
  induction l with
  | nil => rfl
  | cons y ys ih =>
    simp only [insRanked]
    split
    · rfl
    · exact ((ih.cons y).trans (List.Perm.swap x y ys))

theorem sortRanked_perm (xs : List MatchItem) : List.Perm (sortRanked xs) xs := by
  induction xs using List.reverseRecOn with
  | nil => rfl
  | append_singleton ys y ih =>
    rw [sortRanked_append_singleton]
    exact ((insRanked_perm y (sortRanked ys)).trans (ih.cons y)).trans
      (List.perm_append_singleton y ys).symm

theorem mem_insRanked {w x : MatchItem} {l : List MatchItem}
    (h : w ∈ insRanked x l) : w = x ∨ w ∈ l := by
  have := (insRanked_perm x l).mem_iff.mp h
  simpa using this

theorem pairwise_insRanked (x : MatchItem) (l : List MatchItem)
    (h : l.Pairwise ranksLE) : (insRanked x l).Pairwise ranksLE := by
  induction l with
  | nil => simp [insRanked, List.pairwise_singleton]
  | cons y ys ih =>
    simp only [insRanked]
    rcases List.pairwise_cons.mp h with ⟨hy, hys⟩
    split
    · rename_i hxy
      refine List.pairwise_cons.mpr ⟨?_, h⟩
      intro z hz
      rcases List.mem_cons.mp hz with rfl | hz
      · exact ranksBefore_asymm x z hxy
      · exact ranksBefore_negtrans x y z (ranksBefore_asymm x y hxy) (hy z hz)
    · rename_i hxy
      refine List.pairwise_cons.mpr ⟨?_, ih hys⟩
      intro z hz
      rcases mem_insRanked hz with rfl | hz
      · simpa using hxy
      · exact hy z hz

theorem sortRanked_sorted (xs : List MatchItem) : (sortRanked xs).Pairwise ranksLE := by
  induction xs using List.reverseRecOn with
  | nil => simp [sortRanked]
  | append_singleton ys y ih =>
    rw [sortRanked_append_singleton]
    exact pairwise_insRanked y (sortRanked ys) ih

/-- C3: the two selection strategies of SearchEngine::search agree.  The
min-heap-of-size-limit branch (limit < 100) and the
collect-select-nth-truncate-sort branch return the same result list, namely
the limit best matches of the fully ranked buffer, ordered by score
descending and, on equal score, by name ascending (sortRanked is a
permutation of the matches sorted by that order).  Ties in both score and
name are resolved identically in both functional models; the Rust unstable
primitives leave the choice among such fully tied items unspecified. -/
theorem search_selection_strategies_agree :
    (∀ (limit : Nat) (xs : List MatchItem), heapSelect limit xs = vecSelect limit xs) ∧
    (∀ (limit : Nat) (xs : List MatchItem), computeResults limit xs = vecSelect limit xs) ∧
    (∀ xs : List MatchItem, List.Perm (sortRanked xs) xs ∧ (sortRanked xs).Pairwise ranksLE) := by
  have h1 : ∀ (limit : Nat) (xs : List MatchItem), heapSelect limit xs = vecSelect limit xs := by
    intro limit xs
    rw [heapSelect_eq_take_sort, vecSelect]
  refine ⟨h1, ?_, ?_⟩
  · intro limit xs
    rw [computeResults]
    split
    · exact h1 limit xs
    · rfl
  · intro xs
    exact ⟨sortRanked_perm xs, sortRanked_sorted xs⟩


/- ---------------- C6, C7, C9, C10: dispatcher theorems ---------------- -/

/-- managerSearch distributes over concatenation of the action list. -/
theorem managerSearch_append (sf : ScriptExec) (ext : ExtSearch) (l1 l2 : List Action)
    (q : List Nat) :
    managerSearch sf ext (l1 ++ l2) q = managerSearch sf ext l1 q ++ managerSearch sf ext l2 q := by
  induction l1 with
  | nil => simp [managerSearch]
  | cons a rest ih => simp [managerSearch, ih, List.append_assoc]

/-- Filtering out the disabled actions first does not change the search. -/
theorem managerSearch_filter_enabled (sf : ScriptExec) (ext : ExtSearch) (acts : List Action)
    (q : List Nat) :
    managerSearch sf ext acts q = managerSearch sf ext (acts.filter (·.enabled)) q := by
  induction acts with
  | nil => rfl
  | cons a rest ih =>
    by_cases h : a.enabled
    · simp [managerSearch, List.filter_cons, h, ih]
    · simp only [Bool.not_eq_true] at h
      simp [managerSearch, List.filter_cons, h, ih]

/-- toggleById reaches the first occurrence of the id untouched past
actions with other ids. -/
theorem toggleById_append (pre : List Action) (a : Action) (post : List Action)
    (h : ∀ b ∈ pre, b.id ≠ a.id) :
    toggleById a.id (pre ++ a :: post) = pre ++ ({ a with enabled := !a.enabled } :: post) := by
  induction pre with
  | nil => simp [toggleById]
  | cons b bs ih =>
    have hb : b.id ≠ a.id := h b (by simp)
    show toggleById a.id (b :: (bs ++ a :: post)) = _
    rw [toggleById, if_neg hb, ih fun c hc => h c (by simp [hc])]
    rfl

/-- C6: with exactly the enabled QuickLink action
quick_link(id="gh", name="GitHub", keyword="gh",
url="https://github.com/search?q=\x7bquery\x7d", icon="magnifyingglass"),
search("gh rust") returns exactly one result: title "GitHub: rust",
subtitle "https://github.com/search?q=rust",
action OpenUrl("https://github.com/search?q=rust"), score 100.0
(and id "gh:rust", icon "magnifyingglass"), for every script-filter and
native-extension collaborator. -/
theorem quick_link_search_scenario :
    ∀ (sf : ScriptExec) (ext : ExtSearch),
      managerSearch sf ext [ghAction] (strBytes ("gh rust")) =
        [{ id := strBytes ("gh:rust"), title := strBytes ("GitHub: rust"),
           subtitle := strBytes ("https://github.com/search?q=rust"),
           icon := strBytes ("magnifyingglass"), iconPath := none, score := 100,
           action := .openUrl (strBytes ("https://github.com/search?q=rust")),
           quicklook := none }] := by
  intro sf ext
  rfl

/-- C7: the dispatcher's search never produces a result derived from a
disabled action: search equals search over the enabled filter; a disabled
action anywhere in the list contributes nothing; and after toggling off an
enabled action, searching yields exactly what the list without that action
yields. -/
theorem disabled_actions_invisible :
    (∀ (sf : ScriptExec) (ext : ExtSearch) (acts : List Action) (q : List Nat),
      managerSearch sf ext acts q = managerSearch sf ext (acts.filter (·.enabled)) q) ∧
    (∀ (sf : ScriptExec) (ext : ExtSearch) (pre post : List Action) (a : Action) (q : List Nat),
      a.enabled = false →
      managerSearch sf ext (pre ++ a :: post) q = managerSearch sf ext (pre ++ post) q) ∧
    (∀ (sf : ScriptExec) (ext : ExtSearch) (pre post : List Action) (a : Action) (q : List Nat),
      a.enabled = true → (∀ b ∈ pre, b.id ≠ a.id) →
      managerSearch sf ext (toggleById a.id (pre ++ a :: post)) q =
        managerSearch sf ext (pre ++ post) q) := by
  have hmid : ∀ (sf : ScriptExec) (ext : ExtSearch) (pre post : List Action) (a : Action)
      (q : List Nat), a.enabled = false →
      managerSearch sf ext (pre ++ a :: post) q = managerSearch sf ext (pre ++ post) q := by
    intro sf ext pre post a q ha
    rw [managerSearch_append, managerSearch_append]
    simp [managerSearch, ha]
  refine ⟨managerSearch_filter_enabled, hmid, ?_⟩
  intro sf ext pre post a q ha hpre
  rw [toggleById_append pre a post hpre]
  exact hmid sf ext pre post _ q (by simp [ha])

/-- Witness for C7's hypotheses: the disabled-action conjunct with a
disabled copy of the sample action, and the toggle conjunct with the
enabled sample action alone (search "gh rust" of the singleton toggled
list is empty). -/
theorem disabled_actions_invisible_witness :
    managerSearch (fun _ _ _ _ => .ok []) (fun _ _ => [])
        ([] ++ { ghAction with enabled := false } :: []) (strBytes ("gh rust")) =
      managerSearch (fun _ _ _ _ => .ok []) (fun _ _ => []) ([] ++ []) (strBytes ("gh rust")) ∧
    managerSearch (fun _ _ _ _ => .ok []) (fun _ _ => [])
        (toggleById ghAction.id ([] ++ ghAction :: [])) (strBytes ("gh rust")) =
      managerSearch (fun _ _ _ _ => .ok []) (fun _ _ => []) ([] ++ []) (strBytes ("gh rust")) :=
  ⟨disabled_actions_invisible.2.1 _ _ [] [] _ _ rfl,
   disabled_actions_invisible.2.2 _ _ [] [] ghAction _ rfl (by intro b hb; cases hb)⟩

/-- C9: when the script filter of an enabled, keyword-matched ScriptFilter
action fails with error string e, the search does not propagate the error:
it appends exactly one synthesised result with id "<action_id>:error",
icon "exclamationmark.triangle", score 0.0 and action CopyText(e), between
the results of the surrounding actions. -/
theorem script_filter_error_synthesised :
    ∀ (sf : ScriptExec) (ext : ExtSearch) (pre post : List Action) (a : Action)
      (q e kw sp ed sq : List Nat),
      a.enabled = true →
      a.kind = .scriptFilter kw sp ed →
      matchQuickLink q kw = some sq →
      sf sp ed sq a.id = .error e →
      managerSearch sf ext (pre ++ a :: post) q =
        managerSearch sf ext pre q ++
          ({ id := a.id ++ strBytes (":error"), title := strBytes ("Script Error"),
             subtitle := strBytes ("Failed to execute: ") ++ e,
             icon := strBytes ("exclamationmark.triangle"), iconPath := none, score := 0,
             action := .copyText e, quicklook := none } :: managerSearch sf ext post q) := by
  intro sf ext pre post a q e kw sp ed sq ha hk hm hs
  rw [managerSearch_append]
  simp [managerSearch, ha, resultsOf, hk, hm, hs]

/-- Witness for C9 at a concrete failing script filter. -/
theorem script_filter_error_synthesised_witness :
    managerSearch (fun _ _ _ _ => .error (strBytes ("boom"))) (fun _ _ => []) [] (strBytes ("x")) ++
        ({ id := strBytes ("sf1") ++ strBytes (":error"), title := strBytes ("Script Error"),
           subtitle := strBytes ("Failed to execute: ") ++ strBytes ("boom"),
           icon := strBytes ("exclamationmark.triangle"), iconPath := none, score := 0,
           action := .copyText (strBytes ("boom")),
           quicklook := none } :: managerSearch (fun _ _ _ _ => .error (strBytes ("boom")))
            (fun _ _ => []) [] (strBytes ("x"))) =
      managerSearch (fun _ _ _ _ => .error (strBytes ("boom"))) (fun _ _ => [])
        ([] ++ { id := strBytes ("sf1"), name := strBytes ("SF"), icon := strBytes ("gear"),
                 enabled := true,
                 kind := .scriptFilter (strBytes ("x")) (strBytes ("run.sh")) (strBytes ("ext")) }
          :: []) (strBytes ("x")) :=
  (script_filter_error_synthesised (fun _ _ _ _ => .error (strBytes ("boom"))) (fun _ _ => [])
    [] []
    { id := strBytes ("sf1"), name := strBytes ("SF"), icon := strBytes ("gear"),
      enabled := true,
      kind := .scriptFilter (strBytes ("x")) (strBytes ("run.sh")) (strBytes ("ext")) }
    (strBytes ("x")) (strBytes ("boom")) (strBytes ("x")) (strBytes ("run.sh"))
    (strBytes ("ext")) [] rfl rfl (by rfl) rfl).symm

/-- The head of dropWhile does not satisfy the predicate. -/
theorem head?_dropWhile_not (p : Nat → Bool) (l : List Nat) :
    ∀ b, (l.dropWhile p).head? = some b → p b = false := by
  induction l with
  | nil => intro b h; simp [List.dropWhile] at h
  | cons x xs ih =>
    intro b h
    rw [List.dropWhile_cons] at h
    split at h
    · exact ih b h
    · simp at h
      subst h
      rename_i hx
      simpa using hx

/-- A nonempty trimmed string starts with a non-whitespace byte. -/
theorem trimBytes_head_not_ws (q : List Nat) (b : Nat)
    (h : (trimBytes q).head? = some b) : isWsByte b = false := by
  unfold trimBytes at h
  have hsuf : (q.dropWhile isWsByte).reverse.dropWhile isWsByte <:+ (q.dropWhile isWsByte).reverse :=
    List.dropWhile_suffix isWsByte
  have hpre : ((q.dropWhile isWsByte).reverse.dropWhile isWsByte).reverse <+: q.dropWhile isWsByte := by
    have h2 := List.reverse_prefix.mpr hsuf
    simpa using h2
  obtain ⟨t, ht⟩ := hpre
  apply head?_dropWhile_not isWsByte q b
  rw [← ht]
  cases hX : ((q.dropWhile isWsByte).reverse.dropWhile isWsByte).reverse with
  | nil => rw [hX] at h; simp at h
  | cons c cs =>
    rw [hX] at h
    simp only [List.head?_cons, Option.some.injEq] at h
    simp [h]

/-- C10 counterexample: with the empty keyword, the query "hello" (whose
trim is "hello" itself) is REJECTED, not accepted: after the query is
trimmed, the remainder after stripping the empty keyword is the whole
trimmed query, which starts with a non-whitespace byte, so the
space-or-tab-or-empty check fails. -/
theorem empty_keyword_rejects_nonblank_cex :
    matchQuickLink (strBytes ("hello")) [] = none ∧
    trimBytes (strBytes ("hello")) = strBytes ("hello") :=
  ⟨rfl, rfl⟩

/-- C10 (amended): an empty QuickLink/ScriptFilter keyword does NOT match
every query; it matches exactly the queries that trim to the empty string
(returning Some("")), because the trimmed query never starts with a space
or tab, so the accept condition holds only when the trimmed tail is empty. -/
theorem empty_keyword_matches_only_blank :
    ∀ q : List Nat, matchQuickLink q [] = if trimBytes q = [] then some [] else none := by
  intro q
  by_cases hq : trimBytes q = []
  · simp [matchQuickLink, List.isPrefixOf, hq]
    rfl
  · obtain ⟨c, cs, hc⟩ : ∃ c cs, trimBytes q = c :: cs := by
      cases h : trimBytes q with
      | nil => exact absurd h hq
      | cons c cs => exact ⟨c, cs, rfl⟩
    have hcw : isWsByte c = false := trimBytes_head_not_ws q c (by rw [hc]; rfl)
    have hc32 : c ≠ 32 := by
      intro h32; rw [h32] at hcw; simp [isWsByte] at hcw
    have hc9 : c ≠ 9 := by
      intro h9; rw [h9] at hcw; simp [isWsByte] at hcw
    simp [matchQuickLink, List.isPrefixOf, hc, hq, hc32, hc9]

/- ---------------- C5: eager keyword-automaton rebuild ---------------- -/

/-- C5 counterexample: adding an action rebuilds the keyword automaton
DURING the mutation, not lazily on the next search: starting from the empty
dispatcher (automaton None), add(ghAction) returns with the automaton
already rebuilt over the new keyword set \x7b"gh"\x7d.  (ActionManager
keeps a plain Option<AhoCorasick> and calls rebuild_keyword_matcher inside
add/update/remove/toggle; it has no needs_rebuild flag and does not use
shared_utils::KeywordMatcherCache.) -/
theorem keyword_matcher_rebuilt_during_mutation_cex :
    (managerAdd ghAction { actions := [], keywordMatcher := none }).keywordMatcher ≠
      (ManagerState.mk [] none).keywordMatcher ∧
    (managerAdd ghAction { actions := [], keywordMatcher := none }).keywordMatcher =
      some [strBytes ("gh")] :=
  ⟨by decide, rfl⟩

/-- C5 (amended): every dispatcher mutation (add, update, remove, toggle)
rebuilds the keyword automaton eagerly before returning, so the automaton
always equals the one built from the currently enabled keyword-bearing
actions (search performs no rebuild); separately, the
shared_utils::KeywordMatcherCache, which the dispatcher does not use, does
satisfy the claimed flag protocol: needs_rebuild is true after invalidate
and false after rebuild returns. -/
theorem keyword_matcher_eager_invariant :
    (∀ (st : ManagerState) (a : Action), kmWellFormed (managerAdd a st)) ∧
    (∀ (st : ManagerState) (a : Action), kmWellFormed st → kmWellFormed (managerUpdate a st)) ∧
    (∀ (st : ManagerState) (id : List Nat), kmWellFormed st → kmWellFormed (managerRemove id st)) ∧
    (∀ (st : ManagerState) (id : List Nat), kmWellFormed (managerToggle id st)) ∧
    (∀ c : KeywordMatcherCache, (kmcInvalidate c).matcherNeedsRebuild = true) ∧
    (∀ (f : Unit → List (List Nat)) (c : KeywordMatcherCache),
      (kmcRebuild f c).matcherNeedsRebuild = false) := by
  refine ⟨fun st a => rfl, ?_, ?_, fun st id => rfl, fun c => rfl, fun f c => rfl⟩
  · intro st a h
    unfold managerUpdate
    split
    · rfl
    · exact h
  · intro st id h
    unfold managerRemove
    split
    · rfl
    · exact h

/-- Witness for C5's update/remove hypotheses at the well-formed singleton
dispatcher holding the sample action. -/
theorem keyword_matcher_eager_invariant_witness :
    kmWellFormed (managerUpdate ghAction
      { actions := [ghAction], keywordMatcher := some [strBytes ("gh")] }) ∧
    kmWellFormed (managerRemove (strBytes ("gh"))
      { actions := [ghAction], keywordMatcher := some [strBytes ("gh")] }) :=
  ⟨keyword_matcher_eager_invariant.2.1 _ ghAction rfl,
   keyword_matcher_eager_invariant.2.2.1 _ (strBytes ("gh")) rfl⟩

/- ---------------- C4: generation change clears the cache ---------------- -/

/-- C4: when the attached file indexer's generation differs from the
observed one, the next search clears the whole result cache before any
lookup — no query key can hit a pre-invalidation entry, the returned list
is computed fresh from the gathered matches, the post-state cache holds
only the new entry — and the new generation value is recorded. -/
theorem generation_change_clears_cache :
    ∀ (g : Nat) (st : EngineState) (q : List Nat) (limit : Nat) (ms : List MatchItem),
      q ≠ [] → g ≠ st.observedGeneration →
      (checkAndInvalidateCache (some g) st).cache = [] ∧
      engineSearch (some g) ms q limit st =
        (.ok (computeResults limit ms),
         { cache := lruPut q (computeResults limit ms) [], observedGeneration := g }) := by
  intro g st q limit ms hq hg
  have hinv : checkAndInvalidateCache (some g) st = { cache := [], observedGeneration := g } := by
    simp [checkAndInvalidateCache, hg]
  refine ⟨by rw [hinv], ?_⟩
  rw [engineSearch]
  simp only [if_neg hq, hinv]
  rfl

/-- Witness for C4: the old cache holds a stale entry under the very query
searched, yet after the generation moved from 0 to 1 the search ignores it. -/
theorem generation_change_clears_cache_witness :
    (checkAndInvalidateCache (some 1)
        { cache := [(strBytes ("q"), [{ id := [], score := 5, name := [] }])],
          observedGeneration := 0 }).cache = [] ∧
    engineSearch (some 1) [] (strBytes ("q")) 10
        { cache := [(strBytes ("q"), [{ id := [], score := 5, name := [] }])],
          observedGeneration := 0 } =
      (.ok (computeResults 10 []),
       { cache := lruPut (strBytes ("q")) (computeResults 10 []) [], observedGeneration := 1 }) :=
  generation_change_clears_cache 1
    { cache := [(strBytes ("q"), [{ id := [], score := 5, name := [] }])], observedGeneration := 0 }
    (strBytes ("q")) 10 [] (by decide) (by decide)

/- ---------------- C8: storage round-trip ---------------- -/

/-- C8: save_to_disk then load_from_disk returns exactly the saved vector,
whenever the serializer pair satisfies the rkyv contract (deserialization
inverts serialization, and only the empty vector may serialize to zero
bytes); and load_from_disk of an existing zero-byte file is the empty
vector without error. -/
theorem save_load_roundtrip :
    (∀ (α : Type) (enc : List α → List Nat) (dec : List Nat → Option (List α))
        (path : List Nat) (v : List α) (fs : FileSys),
      (∀ w, dec (enc w) = some w) → (enc v = [] → v = []) →
      loadFromDisk dec path (saveToDisk enc path v fs) = .ok v) ∧
    (∀ (α : Type) (dec : List Nat → Option (List α)) (path : List Nat) (fs : FileSys),
      fsRead path fs = some [] → loadFromDisk dec path fs = .ok []) := by
  constructor
  · intro α enc dec path v fs hdec hemp
    have hread : fsRead path (saveToDisk enc path v fs) = some (enc v) := by
      simp [fsRead, saveToDisk, fsWrite, List.find?]
    rw [loadFromDisk, hread]
    by_cases he : enc v = []
    · have hv := hemp he
      subst hv
      simp [he]
    · simp [he, hdec v]
  · intro α dec path fs hread
    rw [loadFromDisk, hread]
    simp

/-- Witness for C8 with a concrete invertible serializer (prepend a tag
byte) at the vector [3, 4], and a concrete zero-byte file. -/
theorem save_load_roundtrip_witness :
    loadFromDisk (fun b => match b with | 0 :: r => some r | _ => none) (strBytes ("db"))
        (saveToDisk (fun v => 0 :: v) (strBytes ("db")) [3, 4] []) = .ok [3, 4] ∧
    loadFromDisk (fun b => match b with | 0 :: r => some r | _ => none) (strBytes ("db"))
        [(strBytes ("db"), [])] = .ok ([] : List Nat) :=
  ⟨save_load_roundtrip.1 Nat (fun v => 0 :: v)
      (fun b => match b with | 0 :: r => some r | _ => none) (strBytes ("db")) [3, 4] []
      (fun w => rfl) (fun h => absurd h (by simp)),
   save_load_roundtrip.2 Nat (fun b => match b with | 0 :: r => some r | _ => none)
      (strBytes ("db")) [(strBytes ("db"), [])] rfl⟩

/- ---------------- C1: pattern capture round-trip ---------------- -/

/-- C1 counterexample, refuting both directions of the claimed iff.
Soundness direction: the repeated placeholder name x in the pattern
"\x7bx\x7d \x7bx\x7d" against input "a b" matches (the second capture
overwrites the first, leaving x bound to "b"), yet expanding the pattern
with the returned capture map gives "b b", which differs from the input
even modulo inter-token whitespace.  Completeness direction: the pattern
"\x7bx\x7da" against input "baa" is REJECTED (the capture scans greedily
only up to the FIRST occurrence of the next literal byte, binding x to "b"
and leaving a trailing "a" unconsumed), even though the nonempty capture
map \x7bx: "ba"\x7d expands the pattern to exactly the input with every
literal byte matched in the corresponding token. -/
theorem match_pattern_roundtrip_cex :
    (matchPattern (strBytes ("\x7bx\x7d \x7bx\x7d")) (strBytes ("a b")) = some [([120], [98])] ∧
      splitWs (expandTemplate [([120], [98])] (strBytes ("\x7bx\x7d \x7bx\x7d"))) ≠
        splitWs (strBytes ("a b"))) ∧
    (matchPattern (strBytes ("\x7bx\x7da")) (strBytes ("baa")) = none ∧
      (∀ kv ∈ [([120], strBytes ("ba"))], kv.2 ≠ ([] : List Nat)) ∧
      splitWs (expandTemplate [([120], strBytes ("ba"))] (strBytes ("\x7bx\x7da"))) =
        splitWs (strBytes ("baa"))) :=
  ⟨⟨by decide, by decide⟩, by decide, by decide, by decide⟩

/-- A successful breakAtByte exhibits the split. -/
theorem breakAtByte_eq (b : Nat) :
    ∀ (xs p a : List Nat), breakAtByte b xs = some (p, a) → xs = p ++ b :: a := by
  intro xs
  induction xs with
  | nil => intro p a h; simp [breakAtByte] at h
  | cons x rest ih =>
    intro p a h
    simp only [breakAtByte] at h
    split at h
    · rename_i hx
      cases h
      subst hx
      rfl
    · cases hx : breakAtByte b rest with
      | none => rw [hx] at h; cases h
      | some pa =>
        rw [hx] at h
        cases h
        rw [ih pa.1 pa.2 (by rw [hx])]
        rfl

/-- breakAtByte looks at the first occurrence, so appending on the right
keeps the same head split. -/
theorem breakAtByte_append (b : Nat) :
    ∀ (xs p a ys : List Nat), breakAtByte b xs = some (p, a) →
      breakAtByte b (xs ++ ys) = some (p, a ++ ys) := by
  intro xs
  induction xs with
  | nil => intro p a ys h; simp [breakAtByte] at h
  | cons x rest ih =>
    intro p a ys h
    by_cases hx : x = b
    · simp only [breakAtByte, if_pos hx] at h
      cases h
      simp [breakAtByte, hx]
    · simp only [breakAtByte, if_neg hx] at h
      cases hrest : breakAtByte b rest with
      | none => rw [hrest] at h; cases h
      | some pa =>
        rw [hrest] at h
        cases h
        have hres := ih pa.1 pa.2 ys (by rw [hrest])
        simp only [List.cons_append, breakAtByte, if_neg hx]
        rw [show breakAtByte b (rest.append ys) = some (pa.1, pa.2 ++ ys) from hres]

/-- Looking up the key just inserted. -/
theorem capsLookup_insert_self (k v : List Nat) (caps : Caps) :
    capsLookup k (capsInsert k v caps) = some v := by
  simp [capsLookup, capsInsert]

/-- Erasing one key does not disturb another key's lookup. -/
theorem capsLookup_erase_ne (k k' : List Nat) (h : k' ≠ k) :
    ∀ caps : Caps, capsLookup k' (capsEraseKey k caps) = capsLookup k' caps := by
  intro caps
  induction caps with
  | nil => rfl
  | cons p rest ih =>
    simp only [capsEraseKey]
    by_cases hp : p.1 = k
    · have hp' : ¬ p.1 = k' := by rw [hp]; exact Ne.symm h
      rw [if_pos hp]
      simp [capsLookup, hp', ih]
    · by_cases hpk : p.1 = k'
      · rw [if_neg hp]
        simp [capsLookup, hpk]
      · rw [if_neg hp]
        simp [capsLookup, hpk, ih]

/-- Inserting one key does not disturb another key's lookup. -/
theorem capsLookup_insert_ne (k k' v : List Nat) (caps : Caps) (h : k' ≠ k) :
    capsLookup k' (capsInsert k v caps) = capsLookup k' caps := by
  have hne : ¬ k = k' := Ne.symm h
  simp [capsInsert, capsLookup, hne, capsLookup_erase_ne k k' h caps]

theorem expandF_fuel :
    ∀ (f1 : Nat) (t : List Nat) (caps : Caps) (f2 : Nat),
      t.length ≤ f1 → t.length ≤ f2 → expandF f1 caps t = expandF f2 caps t := by
  intro f1
  induction f1 with
  | zero =>
    intro t caps f2 h1 _
    cases t with
    | nil => cases f2 <;> rfl
    | cons x xs => simp at h1
  | succ g1 ih =>
    intro t caps f2 h1 h2
    cases t with
    | nil => cases f2 <;> rfl
    | cons b rest =>
      cases f2 with
      | zero => simp at h2
      | succ g2 =>
        have hr1 : rest.length ≤ g1 := by simp at h1; omega
        have hr2 : rest.length ≤ g2 := by simp at h2; omega
        by_cases hb : b = 123
        · simp only [expandF]
          rw [if_pos hb, if_pos hb]
          split
          · rename_i key after heq
            have hlt := breakAtByte_shrink 125 rest key after heq
            split
            · rw [ih after caps g2 (by omega) (by omega)]
            · rw [ih rest caps g2 hr1 hr2]
          · rw [ih rest caps g2 hr1 hr2]
        · simp only [expandF]
          rw [if_neg hb, if_neg hb, ih rest caps g2 hr1 hr2]

/-- A brace-free chunk passes through expansion unchanged, and the scan
continues on the remainder. -/
theorem expandF_no_brace :
    ∀ (t : List Nat) (f : Nat) (caps : Caps) (rest' : List Nat),
      (t ++ rest').length ≤ f → (∀ b ∈ t, b ≠ 123) →
      expandF f caps (t ++ rest') = t ++ expandTemplate caps rest' := by
  intro t
  induction t with
  | nil =>
    intro f caps rest' hf _
    simp only [List.nil_append]
    exact expandF_fuel f rest' caps rest'.length (by simpa using hf) le_rfl
  | cons b ts ih =>
    intro f caps rest' hf hb
    cases f with
    | zero => simp at hf
    | succ g =>
      have hb123 : b ≠ 123 := hb b (by simp)
      simp only [List.cons_append, expandF, if_neg hb123]
      exact congrArg (List.cons b)
        (ih g caps rest' (by simp at hf ⊢; omega) fun c hc => hb c (by simp [hc]))



/-- patNamesF at a placeholder head. -/
theorem patNamesF_succ_brace (n : Nat) (prest varName after : List Nat)
    (hbr : breakAtByte 125 prest = some (varName, after)) :
    patNamesF (n + 1) (123 :: prest) = varName :: patNamesF n after := by
  simp [patNamesF, hbr]

/-- patNamesF at a literal head. -/
theorem patNamesF_succ_lit (n : Nat) (pb : Nat) (prest : List Nat) (h : pb ≠ 123) :
    patNamesF (n + 1) (pb :: prest) = patNamesF n prest := by
  simp [patNamesF, h]

/-- Erasing a key keeps a sublist of the bindings. -/
theorem capsEraseKey_subset (k : List Nat) :
    ∀ (caps : Caps) (kv : List Nat × List Nat), kv ∈ capsEraseKey k caps → kv ∈ caps := by
  intro caps
  induction caps with
  | nil => intro kv h; simp [capsEraseKey] at h
  | cons p rest ih =>
    intro kv h
    simp only [capsEraseKey] at h
    split at h
    · exact List.mem_cons_of_mem p (ih kv h)
    · rcases List.mem_cons.mp h with rfl | h
      · exact List.mem_cons_self kv rest
      · exact List.mem_cons_of_mem p (ih kv h)

/-- A successful walk leaves the lookups of names outside the token's
placeholders untouched. -/
theorem walkTokenF_preserve :
    ∀ (fuel : Nat) (pat inp : List Nat) (caps caps' : Caps),
      pat.length ≤ fuel → walkTokenF fuel pat inp caps = some caps' →
      ∀ k, k ∉ patNamesF fuel pat → capsLookup k caps' = capsLookup k caps := by
  intro fuel
  induction fuel with
  | zero =>
    intro pat inp caps caps' hf hw k _
    cases pat with
    | nil =>
      simp only [walkTokenF] at hw
      split at hw
      · cases hw; rfl
      · cases hw
    | cons pb prest => simp at hf
  | succ n ih =>
    intro pat inp caps caps' hf hw k hk
    cases pat with
    | nil =>
      simp only [walkTokenF] at hw
      split at hw
      · cases hw; rfl
      · cases hw
    | cons pb prest =>
      have hpl : prest.length ≤ n := by simp at hf; omega
      simp only [walkTokenF] at hw
      by_cases hpb : pb = 123
      · rw [if_pos hpb] at hw
        split at hw
        · cases hw
        · rename_i varName after hbr
          split at hw
          · rename_i hvl
            subst hpb
            rw [patNamesF_succ_brace n prest varName after hbr] at hk
            have hkv : k ≠ varName := fun he => hk (he ▸ List.mem_cons_self varName _)
            have hka : k ∉ patNamesF n after := fun hm => hk (List.mem_cons_of_mem _ hm)
            have hal : after.length ≤ n := by
              have := breakAtByte_shrink 125 prest varName after hbr
              omega
            rw [ih after _ _ _ hal hw k hka]
            exact capsLookup_insert_ne varName k _ caps hkv
          · cases hw
      · rw [if_neg hpb] at hw
        split at hw
        · cases hw
        · rename_i ib irest
          split at hw
          · rename_i hib
            rw [patNamesF_succ_lit n pb prest hpb] at hk
            exact ih prest irest caps caps' hpl hw k hk
          · cases hw

/-- A successful walk only adds nonempty capture values. -/
theorem walkTokenF_nonempty :
    ∀ (fuel : Nat) (pat inp : List Nat) (caps caps' : Caps),
      pat.length ≤ fuel → walkTokenF fuel pat inp caps = some caps' →
      (∀ kv ∈ caps, kv.2 ≠ []) → ∀ kv ∈ caps', kv.2 ≠ [] := by
  intro fuel
  induction fuel with
  | zero =>
    intro pat inp caps caps' hf hw hne
    cases pat with
    | nil =>
      simp only [walkTokenF] at hw
      split at hw
      · cases hw; exact hne
      · cases hw
    | cons pb prest => simp at hf
  | succ n ih =>
    intro pat inp caps caps' hf hw hne
    cases pat with
    | nil =>
      simp only [walkTokenF] at hw
      split at hw
      · cases hw; exact hne
      · cases hw
    | cons pb prest =>
      have hpl : prest.length ≤ n := by simp at hf; omega
      simp only [walkTokenF] at hw
      by_cases hpb : pb = 123
      · rw [if_pos hpb] at hw
        split at hw
        · cases hw
        · rename_i varName after hbr
          split at hw
          · rename_i hvl
            have hal : after.length ≤ n := by
              have := breakAtByte_shrink 125 prest varName after hbr
              omega
            refine ih after _ _ _ hal hw ?_
            intro kv hkv
            rcases List.mem_cons.mp hkv with rfl | hkv
            · -- the freshly inserted value is a nonempty take
              cases inp with
              | nil =>
                exfalso
                cases after with
                | nil => simp at hvl
                | cons lit rest2 => simp [findByteIdx, List.findIdx?] at hvl
              | cons i is =>
                simp only [ne_eq]
                obtain ⟨m, hm⟩ : ∃ m, (match after with
                    | [] => (i :: is).length
                    | lit :: _ =>
                      match findByteIdx lit (i :: is) with
                      | some idx => idx
                      | none => (i :: is).length) = m + 1 := by
                  rcases Nat.exists_eq_add_of_lt hvl with ⟨m, hm⟩
                  exact ⟨m, by omega⟩
                rw [hm]
                simp
            · exact hne kv (capsEraseKey_subset varName caps kv hkv)
          · cases hw
      · rw [if_neg hpb] at hw
        split at hw
        · cases hw
        · split at hw
          · exact ih prest _ caps caps' hpl hw hne
          · cases hw



/-- The heart of the round-trip: a successfully walked token, appended to
any remainder, expands (under any capture map that agrees with the walk's
final bindings on the token's placeholder names, provided those names are
distinct) to exactly the input it consumed, followed by the expansion of
the remainder. -/
theorem walkTokenF_expand :
    ∀ (fuel : Nat) (pat inp : List Nat) (caps caps' capsF : Caps),
      pat.length ≤ fuel →
      walkTokenF fuel pat inp caps = some caps' →
      (∀ k, k ∈ patNamesF fuel pat → capsLookup k capsF = capsLookup k caps') →
      (patNamesF fuel pat).Nodup →
      ∀ (rest' : List Nat) (efuel : Nat), (pat ++ rest').length ≤ efuel →
        expandF efuel capsF (pat ++ rest') = inp ++ expandTemplate capsF rest' := by
  intro fuel
  induction fuel with
  | zero =>
    intro pat inp caps caps' capsF hf hw _ _ rest' efuel hef
    cases pat with
    | nil =>
      simp only [walkTokenF] at hw
      split at hw
      · rename_i hinp
        cases hw
        subst hinp
        simp only [List.nil_append] at hef ⊢
        exact (expandF_fuel efuel rest' capsF rest'.length hef le_rfl).trans rfl
      · cases hw
    | cons pb prest => simp at hf
  | succ n ih =>
    intro pat inp caps caps' capsF hf hw hagree hnd rest' efuel hef
    cases pat with
    | nil =>
      simp only [walkTokenF] at hw
      split at hw
      · rename_i hinp
        cases hw
        subst hinp
        simp only [List.nil_append] at hef ⊢
        exact (expandF_fuel efuel rest' capsF rest'.length hef le_rfl).trans rfl
      · cases hw
    | cons pb prest =>
      have hpl : prest.length ≤ n := by simp at hf; omega
      simp only [walkTokenF] at hw
      by_cases hpb : pb = 123
      · rw [if_pos hpb] at hw
        split at hw
        · cases hw
        · rename_i varName after hbr
          split at hw
          · rename_i hvl
            subst hpb
            have hlt := breakAtByte_shrink 125 prest varName after hbr
            have hal : after.length ≤ n := by omega
            rw [patNamesF_succ_brace n prest varName after hbr] at hagree hnd
            have hvn : varName ∉ patNamesF n after := (List.nodup_cons.mp hnd).1
            have hnd' : (patNamesF n after).Nodup := (List.nodup_cons.mp hnd).2
            have hagree' : ∀ k, k ∈ patNamesF n after →
                capsLookup k capsF = capsLookup k caps' := fun k hk =>
              hagree k (List.mem_cons_of_mem _ hk)
            cases efuel with
            | zero => simp at hef
            | succ m =>
              have hbApp := breakAtByte_append 125 prest varName after rest' hbr
              have hpres := walkTokenF_preserve n after _ _ _ hal hw varName hvn
              have hml : (after ++ rest').length ≤ m := by
                simp at hef ⊢
                omega
              simp only [List.cons_append, expandF, if_pos rfl, hbApp,
                hagree varName (List.mem_cons_self _ _), hpres, capsLookup_insert_self,
                List.append_eq]
              rw [ih after _ _ caps' capsF hal hw hagree' hnd' rest' m hml,
                ← List.append_assoc, List.take_append_drop]
              simp
          · cases hw
      · rw [if_neg hpb] at hw
        split at hw
        · cases hw
        · rename_i ib irest
          split at hw
          · rename_i hib
            rw [patNamesF_succ_lit n pb prest hpb] at hagree hnd
            cases efuel with
            | zero => simp at hef
            | succ m =>
              have hml : (prest ++ rest').length ≤ m := by
                simp at hef ⊢
                omega
              simp only [List.cons_append, expandF, if_neg hpb, List.append_eq]
              rw [ih prest irest caps caps' capsF hpl hw hagree hnd rest' m hml, hib]
          · cases hw



/-- A token that fails the contains('{') test has no brace byte at all. -/
theorem not_mem_of_contains_false (pat : List Nat) (h : pat.contains 123 = false) :
    ∀ b ∈ pat, b ≠ 123 := by
  intro b hb he
  subst he
  simp at h
  exact absurd hb h

/-- matchToken preserves lookups of names outside the token's placeholders. -/
theorem matchToken_preserve (pat inp : List Nat) (caps caps' : Caps)
    (hm : matchToken pat inp caps = some caps') :
    ∀ k, k ∉ patNames pat → capsLookup k caps' = capsLookup k caps := by
  intro k hk
  unfold matchToken at hm
  split at hm
  · exact walkTokenF_preserve pat.length pat inp caps caps' le_rfl hm k hk
  · split at hm
    · cases hm; rfl
    · cases hm

/-- matchToken only adds nonempty capture values. -/
theorem matchToken_nonempty (pat inp : List Nat) (caps caps' : Caps)
    (hm : matchToken pat inp caps = some caps')
    (hne : ∀ kv ∈ caps, kv.2 ≠ []) : ∀ kv ∈ caps', kv.2 ≠ [] := by
  unfold matchToken at hm
  split at hm
  · exact walkTokenF_nonempty pat.length pat inp caps caps' le_rfl hm hne
  · split at hm
    · cases hm; exact hne
    · cases hm

/-- matchTokens preserves lookups of names outside all the tokens'
placeholders. -/
theorem matchTokens_preserve :
    ∀ (ps qs : List (List Nat)) (caps caps' : Caps),
      matchTokens ps qs caps = some caps' →
      ∀ k, k ∉ ((ps.map patNames).flatten) → capsLookup k caps' = capsLookup k caps := by
  intro ps
  induction ps with
  | nil =>
    intro qs caps caps' hw k _
    cases qs with
    | nil => simp only [matchTokens] at hw; cases hw; rfl
    | cons q qs' => simp [matchTokens] at hw
  | cons p ps' ih =>
    intro qs caps caps' hw k hk
    cases qs with
    | nil => simp [matchTokens] at hw
    | cons q qs' =>
      simp only [matchTokens] at hw
      split at hw
      · rename_i caps2 hmt
        simp only [List.map_cons, List.flatten_cons, List.mem_append] at hk
        push_neg at hk
        rw [ih qs' caps2 caps' hw k hk.2]
        exact matchToken_preserve p q caps caps2 hmt k hk.1
      · cases hw

/-- matchTokens only adds nonempty capture values. -/
theorem matchTokens_nonempty :
    ∀ (ps qs : List (List Nat)) (caps caps' : Caps),
      matchTokens ps qs caps = some caps' →
      (∀ kv ∈ caps, kv.2 ≠ []) → ∀ kv ∈ caps', kv.2 ≠ [] := by
  intro ps
  induction ps with
  | nil =>
    intro qs caps caps' hw hne
    cases qs with
    | nil => simp only [matchTokens] at hw; cases hw; exact hne
    | cons q qs' => simp [matchTokens] at hw
  | cons p ps' ih =>
    intro qs caps caps' hw hne
    cases qs with
    | nil => simp [matchTokens] at hw
    | cons q qs' =>
      simp only [matchTokens] at hw
      split at hw
      · rename_i caps2 hmt
        exact ih qs' caps2 caps' hw (matchToken_nonempty p q caps caps2 hmt hne)
      · cases hw

/-- Every matched token, with the final capture map, expands to the input
token it consumed (in the appended form needed to traverse the whole
pattern string), provided all placeholder names are distinct. -/
theorem matchTokens_expand (capsF : Caps) :
    ∀ (ps qs : List (List Nat)) (caps capsT : Caps),
      matchTokens ps qs caps = some capsT →
      ((ps.map patNames).flatten).Nodup →
      (∀ k, k ∈ (ps.map patNames).flatten → capsLookup k capsF = capsLookup k capsT) →
      List.Forall₂ (fun p q => ∀ (rest' : List Nat) (efuel : Nat),
        (p ++ rest').length ≤ efuel →
        expandF efuel capsF (p ++ rest') = q ++ expandTemplate capsF rest') ps qs := by
  intro ps
  induction ps with
  | nil =>
    intro qs caps capsT hw _ _
    cases qs with
    | nil => exact List.Forall₂.nil
    | cons q qs' => simp [matchTokens] at hw
  | cons p ps' ih =>
    intro qs caps capsT hw hnd hagree
    cases qs with
    | nil => simp [matchTokens] at hw
    | cons q qs' =>
      simp only [matchTokens] at hw
      split at hw
      · rename_i caps2 hmt
        simp only [List.map_cons, List.flatten_cons] at hnd hagree
        have hdis := List.nodup_append.mp hnd
        refine List.Forall₂.cons ?_ ?_
        · -- the head token
          unfold matchToken at hmt
          split at hmt
          · -- brace walk
            intro rest' efuel hef
            refine walkTokenF_expand p.length p q caps caps2 capsF le_rfl hmt ?_ hdis.1
              rest' efuel hef
            intro k hk
            have hk' : k ∈ patNames p := hk
            have hnotr : k ∉ (ps'.map patNames).flatten := hdis.2.2 hk'
            rw [hagree k (List.mem_append.mpr (Or.inl hk')),
              matchTokens_preserve ps' qs' caps2 capsT hw k hnotr]
          · split at hmt
            · rename_i hcon hpq
              cases hmt
              subst hpq
              intro rest' efuel hef
              exact expandF_no_brace p efuel capsF rest' hef
                (not_mem_of_contains_false p (by simpa using hcon))
            · cases hmt
        · exact ih qs' caps2 capsT hw hdis.2.1
            fun k hk => hagree k (List.mem_append.mpr (Or.inr hk))
      · cases hw



/-- A whitespace head is skipped between tokens. -/
theorem splitWs_ws_cons (c : Nat) (s : List Nat) (hc : isWsByte c = true) :
    splitWs (c :: s) = splitWs s := by
  simp [splitWs, splitWsAux, hc]

/-- The accumulator form of split_whitespace: with a pending token, the
result is that token extended by the maximal non-whitespace run, then the
split of the remainder. -/
theorem splitWsAux_acc :
    ∀ (s acc : List Nat), acc ≠ [] →
      splitWsAux s acc =
        (acc.reverse ++ s.takeWhile fun b => !isWsByte b) ::
          splitWs (s.dropWhile fun b => !isWsByte b) := by
  intro s
  induction s with
  | nil =>
    intro acc hacc
    simp [splitWsAux, splitWs, hacc]
  | cons c s' ih =>
    intro acc hacc
    by_cases hc : isWsByte c
    · rw [show ∀ l, l.takeWhile (fun b => !isWsByte b) = List.takeWhile (fun b => !isWsByte b) l from fun l => rfl]
      simp only [splitWsAux, if_pos hc, if_neg hacc, List.takeWhile_cons, hc,
        Bool.not_true, List.dropWhile_cons]
      simp only [Bool.false_eq_true, if_false, List.append_nil]
      rw [show splitWsAux s' [] = splitWs s' from rfl, ← splitWs_ws_cons c s' hc]
      simp
    · simp only [splitWsAux, if_neg hc]
      rw [ih (c :: acc) (by simp)]
      have hcb : (!isWsByte c) = true := by simp [hc]
      simp [List.takeWhile_cons, List.dropWhile_cons, hcb]
  
/-- A non-whitespace head opens a token: the maximal run, then the split of
the remainder. -/
theorem splitWs_cons_nonWs (c : Nat) (s : List Nat) (hc : isWsByte c = false) :
    splitWs (c :: s) =
      (c :: s.takeWhile fun b => !isWsByte b) ::
        splitWs (s.dropWhile fun b => !isWsByte b) := by
  show splitWsAux (c :: s) [] = _
  simp only [splitWsAux, hc, Bool.false_eq_true, if_false]
  rw [splitWsAux_acc s [c] (by simp)]
  rfl

/-- Tokens of split_whitespace are nonempty and whitespace-free. -/
theorem splitWs_token_spec :
    ∀ (n : Nat) (s : List Nat), s.length ≤ n →
      ∀ t ∈ splitWs s, t ≠ [] ∧ ∀ b ∈ t, isWsByte b = false := by
  intro n
  induction n with
  | zero =>
    intro s hs t ht
    cases s with
    | nil => simp [splitWs, splitWsAux] at ht
    | cons c s' => simp at hs
  | succ m ih =>
    intro s hs t ht
    cases s with
    | nil => simp [splitWs, splitWsAux] at ht
    | cons c s' =>
      by_cases hc : isWsByte c
      · rw [splitWs_ws_cons c s' hc] at ht
        exact ih s' (by simp at hs; omega) t ht
      · rw [splitWs_cons_nonWs c s' (by simpa using hc)] at ht
        rcases List.mem_cons.mp ht with rfl | ht
        · refine ⟨by simp, ?_⟩
          intro b hb
          rcases List.mem_cons.mp hb with rfl | hb
          · simpa using hc
          · have hmem := List.mem_takeWhile_imp hb
            simpa using hmem
        · have hlen : (s'.dropWhile fun b => !isWsByte b).length ≤ m :=
            le_trans (List.IsSuffix.length_le (List.dropWhile_suffix _))
              (by simp at hs; omega)
          exact ih _ hlen t ht

/-- takeWhile passes a fully-satisfying chunk. -/
theorem takeWhile_append_all (P : Nat → Bool) :
    ∀ (u z : List Nat), (∀ b ∈ u, P b = true) → (u ++ z).takeWhile P = u ++ z.takeWhile P := by
  intro u
  induction u with
  | nil => intro z _; rfl
  | cons b u' ih =>
    intro z hu
    simp only [List.cons_append, List.takeWhile_cons, hu b (by simp), if_true]
    rw [ih z fun x hx => hu x (by simp [hx])]

/-- dropWhile drops a fully-satisfying chunk. -/
theorem dropWhile_append_all (P : Nat → Bool) :
    ∀ (u z : List Nat), (∀ b ∈ u, P b = true) → (u ++ z).dropWhile P = z.dropWhile P := by
  intro u
  induction u with
  | nil => intro z _; rfl
  | cons b u' ih =>
    intro z hu
    simp only [List.cons_append, List.dropWhile_cons, hu b (by simp), if_true]
    exact ih z fun x hx => hu x (by simp [hx])

/-- Splitting a nonempty whitespace-free token followed by nothing or a
whitespace-headed tail isolates the token. -/
theorem splitWs_append_token (u z : List Nat) (hu : u ≠ [])
    (huw : ∀ b ∈ u, isWsByte b = false)
    (hz : z = [] ∨ ∃ d z', z = d :: z' ∧ isWsByte d = true) :
    splitWs (u ++ z) = u :: splitWs z := by
  cases u with
  | nil => exact absurd rfl hu
  | cons c u' =>
    have hc : isWsByte c = false := huw c (by simp)
    rw [List.cons_append, splitWs_cons_nonWs c (u' ++ z) hc]
    have hPu' : ∀ b ∈ u', (!isWsByte b) = true := fun b hb => by
      simp [huw b (List.mem_cons_of_mem _ hb)]
    rw [takeWhile_append_all _ u' z hPu', dropWhile_append_all _ u' z hPu']
    have hzt : z.takeWhile (fun b => !isWsByte b) = [] ∧
        z.dropWhile (fun b => !isWsByte b) = z := by
      rcases hz with rfl | ⟨d, z', rfl, hd⟩
      · exact ⟨rfl, rfl⟩
      · constructor
        · simp [List.takeWhile_cons, hd]
        · simp [List.dropWhile_cons, hd]
    rw [hzt.1, hzt.2, List.append_nil]



/-- Expanding a pattern whose tokens each expand to the corresponding input
token splits back to exactly those input tokens: inter-token whitespace is
emitted verbatim and never merges or splits the (nonempty, whitespace-free)
expanded tokens. -/
theorem expand_splits (capsF : Caps) :
    ∀ (n : Nat) (s : List Nat), s.length ≤ n →
      ∀ qs : List (List Nat),
        (∀ t ∈ qs, t ≠ [] ∧ ∀ b ∈ t, isWsByte b = false) →
        List.Forall₂ (fun pt qt => ∀ (rest' : List Nat) (efuel : Nat),
          (pt ++ rest').length ≤ efuel →
          expandF efuel capsF (pt ++ rest') = qt ++ expandTemplate capsF rest')
          (splitWs s) qs →
        splitWs (expandTemplate capsF s) = qs := by
  intro n
  induction n with
  | zero =>
    intro s hs qs hqs hF
    cases s with
    | nil =>
      rw [show splitWs [] = [] from rfl] at hF
      cases hF
      rfl
    | cons c s' => simp at hs
  | succ m ih =>
    intro s hs qs hqs hF
    cases s with
    | nil =>
      rw [show splitWs [] = [] from rfl] at hF
      cases hF
      rfl
    | cons c s' =>
      by_cases hc : isWsByte c
      · rw [splitWs_ws_cons c s' hc] at hF
        have hc123 : c ≠ 123 := by
          intro h
          rw [h] at hc
          exact absurd hc (by decide)
        have hexp : expandTemplate capsF (c :: s') = c :: expandTemplate capsF s' := by
          show expandF (s'.length + 1) capsF (c :: s') = _
          simp only [expandF, if_neg hc123]
          rfl
        rw [hexp, splitWs_ws_cons c _ hc]
        exact ih s' (by simp at hs; omega) qs hqs hF
      · have hc' : isWsByte c = false := by simpa using hc
        rw [splitWs_cons_nonWs c s' hc'] at hF
        cases hF with
        | cons hR hF' =>
          rename_i u qs'
          have hsplit : c :: s' =
              (c :: s'.takeWhile fun b => !isWsByte b) ++
                s'.dropWhile fun b => !isWsByte b := by
            simp
          have hexp : expandTemplate capsF (c :: s') =
              u ++ expandTemplate capsF (s'.dropWhile fun b => !isWsByte b) := by
            show expandF (c :: s').length capsF (c :: s') = _
            conv_lhs => rw [hsplit]
            exact hR _ _ (le_of_eq (by rw [← hsplit]))
          have hz : (s'.dropWhile fun b => !isWsByte b) = [] ∨
              ∃ d z', (s'.dropWhile fun b => !isWsByte b) = d :: z' ∧ isWsByte d = true := by
            cases hdw : s'.dropWhile (fun b => !isWsByte b) with
            | nil => exact Or.inl rfl
            | cons d z' =>
              refine Or.inr ⟨d, z', rfl, ?_⟩
              have hhd := head?_dropWhile_not (fun b => !isWsByte b) s' d (by rw [hdw]; rfl)
              simpa using hhd
          have hzexp : expandTemplate capsF (s'.dropWhile fun b => !isWsByte b) = [] ∨
              ∃ d w, expandTemplate capsF (s'.dropWhile fun b => !isWsByte b) = d :: w ∧
                isWsByte d = true := by
            rcases hz with hnil | ⟨d, z', hdz, hd⟩
            · left
              rw [hnil]
              rfl
            · right
              have hd123 : d ≠ 123 := by
                intro h
                rw [h] at hd
                exact absurd hd (by decide)
              refine ⟨d, expandF z'.length capsF z', ?_, hd⟩
              rw [hdz]
              show expandF (z'.length + 1) capsF (d :: z') = _
              simp only [expandF, if_neg hd123]
          have hu := hqs u (by simp)
          rw [hexp, splitWs_append_token u _ hu.1 hu.2 hzexp]
          have hdwlen : (s'.dropWhile fun b => !isWsByte b).length ≤ m :=
            le_trans (List.IsSuffix.length_le (List.dropWhile_suffix _))
              (by simp at hs; omega)
          rw [ih _ hdwlen qs' (fun t ht => hqs t (List.mem_cons_of_mem _ ht)) hF']

/-- C1 (amended): for EVERY successful match_pattern(p, q) = Some(C), p and
q split into equally many whitespace-separated tokens and every capture in
C is a non-empty substring; and when additionally each placeholder name
occurs at most once in p, expanding p with C yields q modulo inter-token
whitespace.  (With a repeated name the match still succeeds and the first
two conclusions still hold, but the later capture overwrites the earlier
one, so the expansion need not reproduce q; and the converse direction of
the original iff is false independently, since the greedy
capture-to-next-literal scan can reject a pair that a nonempty capture map
would expand exactly — see the counterexample.) -/
theorem match_pattern_roundtrip :
    ∀ (p q : List Nat) (caps : Caps),
      matchPattern p q = some caps →
      (splitWs p).length = (splitWs q).length ∧
      (∀ kv ∈ caps, kv.2 ≠ []) ∧
      ((((splitWs p).map patNames).flatten).Nodup →
        splitWs (expandTemplate caps p) = splitWs q) := by
  intro p q caps hm
  unfold matchPattern at hm
  dsimp only at hm
  split at hm
  · cases hm
  · rename_i hlen
    push_neg at hlen
    refine ⟨hlen, matchTokens_nonempty (splitWs p) (splitWs q) [] caps hm (by simp), ?_⟩
    intro hnd
    have hF := matchTokens_expand caps (splitWs p) (splitWs q) [] caps hm hnd
      fun k _ => rfl
    exact expand_splits caps p.length p le_rfl (splitWs q)
      (fun t ht => splitWs_token_spec q.length q le_rfl t ht) hF

/-- Witness for C1's hypotheses at the repository's own test pattern:
"gh \x7bowner\x7d/\x7brepo\x7d" against "gh rust-lang/rust" (distinct
names owner, repo); the token counts agree, the captures are nonempty and
the expansion reproduces the input tokens. -/
theorem match_pattern_roundtrip_witness :
    (splitWs (strBytes ("gh \x7bowner\x7d/\x7brepo\x7d"))).length =
        (splitWs (strBytes ("gh rust-lang/rust"))).length ∧
      (∀ kv ∈ [([114, 101, 112, 111], [114, 117, 115, 116]),
        ([111, 119, 110, 101, 114], [114, 117, 115, 116, 45, 108, 97, 110, 103])],
        kv.2 ≠ ([] : List Nat)) ∧
      splitWs (expandTemplate
          [([114, 101, 112, 111], [114, 117, 115, 116]),
           ([111, 119, 110, 101, 114], [114, 117, 115, 116, 45, 108, 97, 110, 103])]
          (strBytes ("gh \x7bowner\x7d/\x7brepo\x7d"))) =
        splitWs (strBytes ("gh rust-lang/rust")) :=
  ⟨(match_pattern_roundtrip (strBytes ("gh \x7bowner\x7d/\x7brepo\x7d"))
      (strBytes ("gh rust-lang/rust"))
      [([114, 101, 112, 111], [114, 117, 115, 116]),
       ([111, 119, 110, 101, 114], [114, 117, 115, 116, 45, 108, 97, 110, 103])]
      (by decide)).1,
   (match_pattern_roundtrip (strBytes ("gh \x7bowner\x7d/\x7brepo\x7d"))
      (strBytes ("gh rust-lang/rust"))
      [([114, 101, 112, 111], [114, 117, 115, 116]),
       ([111, 119, 110, 101, 114], [114, 117, 115, 116, 45, 108, 97, 110, 103])]
      (by decide)).2.1,
   (match_pattern_roundtrip (strBytes ("gh \x7bowner\x7d/\x7brepo\x7d"))
      (strBytes ("gh rust-lang/rust"))
      [([114, 101, 112, 111], [114, 117, 115, 116]),
       ([111, 119, 110, 101, 114], [114, 117, 115, 116, 45, 108, 97, 110, 103])]
      (by decide)).2.2 (by decide)⟩

end Summon
